import Mathlib

set_option maxRecDepth 8000

/- Verification of the two-stage resume review pipeline of
   src/services/resume_service.py.  Python strings are modelled as lists of
   characters (`Str`); every function below is a direct translation of the
   corresponding Python function, with Python's Unicode whitespace/line-break
   conventions made explicit. -/

abbrev Str := List Char

/-- Characters Python treats as whitespace: the set recognised by
`str.strip()` with no argument and by the regex class `\s`. -/
def pyWsChars : List Char :=
  [' ', '\t', '\n', '\r', '\u000B', '\u000C',
   '\u001C', '\u001D', '\u001E', '\u001F', '\u0085', '\u00A0', '\u1680',
   '\u2000', '\u2001', '\u2002', '\u2003', '\u2004', '\u2005', '\u2006',
   '\u2007', '\u2008', '\u2009', '\u200A', '\u2028', '\u2029', '\u202F',
   '\u205F', '\u3000']

def isPyWs (c : Char) : Bool := pyWsChars.contains c

/-- Characters at which Python's `str.splitlines` breaks a line
(besides the two-character sequence CR LF, handled separately). -/
def lineBreakChars : List Char :=
  ['\n', '\r', '\u000B', '\u000C', '\u001C', '\u001D', '\u001E',
   '\u0085', '\u2028', '\u2029']

def isLineBreak (c : Char) : Bool := lineBreakChars.contains c

/-- Word characters for the regex word boundary `\b` (the é of "resumé" is a
word character in Python's Unicode-aware `\w`). -/
def isWordChar (c : Char) : Bool :=
  c.isAlphanum || c == '_' || c == 'é' || c == 'É'

/-- Remove the longest suffix whose characters all satisfy `p`. -/
def dropEndWhile (p : Char → Bool) (s : Str) : Str :=
  (s.reverse.dropWhile p).reverse

/-- Python `str.strip()` (no argument): trim whitespace from both ends. -/
def pyStrip (s : Str) : Str :=
  dropEndWhile isPyWs (s.dropWhile isPyWs)

/-- The backtick character. -/
def btChar : Char := Char.ofNat 96

def isBt (c : Char) : Bool := c == btChar

/-- Python `str.strip("\x60")`: trim backticks from both ends. -/
def stripBt (s : Str) : Str :=
  dropEndWhile isBt (s.dropWhile isBt)

/-- Three backticks, the code-fence marker. -/
def bt3 : Str := [btChar, btChar, btChar]

/-- Python `str.lower()` on one character.  Besides ASCII, the one accented
letter appearing in the detector's phrases is mapped (É to é); other
non-ASCII letters do not occur in the texts this development reasons
about. -/
def toLowerC (c : Char) : Char := if c == 'É' then 'é' else c.toLower

/-- Python `str.lower()`. -/
def toLowerS (s : Str) : Str := s.map toLowerC

/-- Python's substring test `needle in hay`. -/
def containsSub (needle : Str) : Str → Bool
  | [] => List.isPrefixOf needle []
  | c :: rest => List.isPrefixOf needle (c :: rest) || containsSub needle rest

/-- Helper for `splitlinesPy`: `acc` is the reversed current line; the
two-character break CR LF is recognised by one character of lookahead. -/
def splitlinesAux : Str → Str → List Str
  | [], acc => if acc.isEmpty then [] else [acc.reverse]
  | [c], acc => if isLineBreak c then [acc.reverse] else [(c :: acc).reverse]
  | c :: c2 :: rest, acc =>
    if c == '\r' && c2 == '\n' then acc.reverse :: splitlinesAux rest []
    else if isLineBreak c then acc.reverse :: splitlinesAux (c2 :: rest) []
    else splitlinesAux (c2 :: rest) (c :: acc)

/-- Python `str.splitlines()`. -/
def splitlinesPy (s : Str) : List Str := splitlinesAux s []

/-- Python `"\n".join(lines)`. -/
def joinNL : List Str → Str
  | [] => []
  | [l] => l
  | l :: ls => l ++ '\n' :: joinNL ls

/-- `ResumeReviewService._strip_code_fences`: remove one enclosing
```-style code fence (or stray backticks) and trim. -/
def strip_code_fences (text : Str) : Str :=
  let stripped := pyStrip text
  if bt3.isPrefixOf stripped && bt3.isSuffixOf stripped then
    let lines := splitlinesPy stripped
    if 2 ≤ lines.length && bt3.isPrefixOf (lines.headD []) then
      pyStrip (joinNL ((lines.drop 1).dropLast))
    else
      pyStrip (stripBt stripped)
  else stripped

/-- The module-level constant `INVALID_RESUME_SENTINEL`. -/
def INVALID_RESUME_SENTINEL : String :=
  "The provided resume is INVALID. Please provide a valid resume for review."

/-- The sentinel as a character list. -/
def sentinel : Str := INVALID_RESUME_SENTINEL.data

/-- `ResumeReviewService._normalize_llm_text`. -/
def normalize_llm_text : Option Str → Str
  | none => []
  | some t => if t = [] then [] else pyStrip (strip_code_fences t)

/-- Helper for whitespace-run collapsing: the flag records whether the
previous character was part of a whitespace run already replaced. -/
def collapseRunsAux (p : Char → Bool) : Bool → Str → Str
  | _, [] => []
  | prevWs, c :: rest =>
    if p c then
      if prevWs then collapseRunsAux p true rest
      else ' ' :: collapseRunsAux p true rest
    else c :: collapseRunsAux p false rest

/-- Python `re.sub(r"\s+", " ", s)`. -/
def collapseWs (s : Str) : Str := collapseRunsAux isPyWs false s

def isSpaceTab (c : Char) : Bool := c == ' ' || c == '\t'

/-- Python `re.sub(r"[ \t]+", " ", s)`. -/
def collapseSpaceTab (s : Str) : Str := collapseRunsAux isSpaceTab false s

/-- Token of the tiny regex fragment used by the detector's patterns:
a literal character, a one-character class such as `[eé]`, or `\s+`. -/
inductive Tok
  | lit : Char → Tok
  | cls : List Char → Tok
  | wsp : Tok

/-- Turn a word into literal tokens. -/
def lits (s : String) : List Tok := s.data.map Tok.lit

/-- The character class `[eé]`. -/
def clsEE : List Char := ['e', 'é']

/-- The character class `['’]` (ASCII apostrophe or right single quote). -/
def clsApos : List Char := [Char.ofNat 39, Char.ofNat 0x2019]

def strNot : String := "not"
def strA : String := "a"
def strResum : String := "resum"
def strIsn : String := "isn"
def strT : String := "t"
def strThis : String := "this"
def strDocument : String := "document"
def strIs : String := "is"
def strActually : String := "actually"
def strDemonstrably : String := "demonstrably"
def strCommand : String := "command"
def strReference : String := "reference"
def strTechnical : String := "technical"
def strManual : String := "manual"
def strGuide : String := "guide"
def strTable : String := "table"
def strOf : String := "of"
def strContents : String := "contents"
def strDocumentation : String := "documentation"
def strSuitable : String := "suitable"
def strAs : String := "as"
def strJob : String := "job"
def strApplication : String := "application"
def strImmediately : String := "immediately"
def strDisqualifying : String := "disqualifying"

/-- `\bnot\s+a\s+resum[eé]\b` (a pattern is a list of alternatives; optional
groups of the source regexes are expanded into alternatives). -/
def patNotAResume : List (List Tok) :=
  [lits strNot ++ [Tok.wsp] ++ lits strA ++ [Tok.wsp] ++ lits strResum ++ [Tok.cls clsEE]]

/-- `\bisn['’]?t\s+a\s+resum[eé]\b`. -/
def patIsnt : List (List Tok) :=
  [lits strIsn ++ lits strT ++ [Tok.wsp] ++ lits strA ++ [Tok.wsp] ++ lits strResum ++ [Tok.cls clsEE],
   lits strIsn ++ [Tok.lit (Char.ofNat 39)] ++ lits strT ++ [Tok.wsp] ++ lits strA ++ [Tok.wsp] ++ lits strResum ++ [Tok.cls clsEE],
   lits strIsn ++ [Tok.lit (Char.ofNat 0x2019)] ++ lits strT ++ [Tok.wsp] ++ lits strA ++ [Tok.wsp] ++ lits strResum ++ [Tok.cls clsEE]]

/-- `\bthis\s+(document\s+)?is\s+not\s+a\s+resum[eé]\b`. -/
def patThisIsNot : List (List Tok) :=
  [lits strThis ++ [Tok.wsp] ++ lits strIs ++ [Tok.wsp] ++ lits strNot ++ [Tok.wsp] ++ lits strA ++ [Tok.wsp] ++ lits strResum ++ [Tok.cls clsEE],
   lits strThis ++ [Tok.wsp] ++ lits strDocument ++ [Tok.wsp] ++ lits strIs ++ [Tok.wsp] ++ lits strNot ++ [Tok.wsp] ++ lits strA ++ [Tok.wsp] ++ lits strResum ++ [Tok.cls clsEE]]

/-- `\bnot\s+actually\s+a\s+resum[eé]\b`. -/
def patNotActually : List (List Tok) :=
  [lits strNot ++ [Tok.wsp] ++ lits strActually ++ [Tok.wsp] ++ lits strA ++ [Tok.wsp] ++ lits strResum ++ [Tok.cls clsEE]]

/-- `\bdemonstrably\s+not\s+a\s+resum[eé]\b`. -/
def patDemonstrably : List (List Tok) :=
  [lits strDemonstrably ++ [Tok.wsp] ++ lits strNot ++ [Tok.wsp] ++ lits strA ++ [Tok.wsp] ++ lits strResum ++ [Tok.cls clsEE]]

/-- `\bcommand\s+reference\b`. -/
def patCommandRef : List (List Tok) :=
  [lits strCommand ++ [Tok.wsp] ++ lits strReference]

/-- `\btechnical\s+manual\b`. -/
def patTechManual : List (List Tok) :=
  [lits strTechnical ++ [Tok.wsp] ++ lits strManual]

/-- `\btechnical\s+guide\b`. -/
def patTechGuide : List (List Tok) :=
  [lits strTechnical ++ [Tok.wsp] ++ lits strGuide]

/-- `\btable\s+of\s+contents\b`. -/
def patTableOfContents : List (List Tok) :=
  [lits strTable ++ [Tok.wsp] ++ lits strOf ++ [Tok.wsp] ++ lits strContents]

/-- `\bdocumentation\b`. -/
def patDocumentation : List (List Tok) :=
  [lits strDocumentation]

/-- `\bnot\s+suitable\s+as\s+(a\s+)?job\s+application\b`. -/
def patNotSuitable : List (List Tok) :=
  [lits strNot ++ [Tok.wsp] ++ lits strSuitable ++ [Tok.wsp] ++ lits strAs ++ [Tok.wsp] ++ lits strJob ++ [Tok.wsp] ++ lits strApplication,
   lits strNot ++ [Tok.wsp] ++ lits strSuitable ++ [Tok.wsp] ++ lits strAs ++ [Tok.wsp] ++ lits strA ++ [Tok.wsp] ++ lits strJob ++ [Tok.wsp] ++ lits strApplication]

/-- `\bimmediately\s+disqualifying\b`. -/
def patDisqualifying : List (List Tok) :=
  [lits strImmediately ++ [Tok.wsp] ++ lits strDisqualifying]

/-- The `patterns` list of `_is_invalid_resume_response`, in source order. -/
def patterns : List (List (List Tok)) :=
  [patNotAResume, patIsnt, patThisIsNot, patNotActually, patDemonstrably,
   patCommandRef, patTechManual, patTechGuide, patTableOfContents,
   patDocumentation, patNotSuitable, patDisqualifying]

/-- Remainders of `s` after consuming one or more leading whitespace
characters (all ways `\s+` can match a prefix of `s`). -/
def wsTails : Str → List Str
  | [] => []
  | c :: rest => if isPyWs c then rest :: wsTails rest else []

/-- All remainders after the token sequence matches a prefix of `s`. -/
def matchToks : List Tok → Str → List Str
  | [], s => [s]
  | Tok.lit c :: ks, s =>
    match s with
    | [] => []
    | d :: rest => if d = c then matchToks ks rest else []
  | Tok.cls cs :: ks, s =>
    match s with
    | [] => []
    | d :: rest => if cs.any (fun x => x == d) then matchToks ks rest else []
  | Tok.wsp :: ks, s => (wsTails s).flatMap (fun r => matchToks ks r)

/-- `\b` holds before the match: start of string or previous char non-word. -/
def boundaryOk : Option Char → Bool
  | none => true
  | some c => !isWordChar c

/-- `\b` holds after the match: end of string or next char non-word. -/
def endBoundaryOk : Str → Bool
  | [] => true
  | c :: _ => !isWordChar c

/-- Does some alternative match at the current position, ending at a word
boundary? -/
def matchesHere (alts : List (List Tok)) (s : Str) : Bool :=
  alts.any (fun toks => (matchToks toks s).any endBoundaryOk)

/-- Scan all positions, tracking the previous character for `\b`. -/
def searchAux (alts : List (List Tok)) : Option Char → Str → Bool
  | prev, [] => boundaryOk prev && matchesHere alts []
  | prev, c :: rest =>
    (boundaryOk prev && matchesHere alts (c :: rest)) || searchAux alts (some c) rest

/-- `re.search(pattern, s) is not None` for the patterns above (all of which
start and end with `\b` around word characters). -/
def searchPat (alts : List (List Tok)) (s : Str) : Bool :=
  searchAux alts none s

def phrNotAResume : Str := "not a resume".data
def phrNotAResumeAcc : Str := "not a resumé".data
def phrNotARsum : Str := "not a résumé".data
def phrNotSuitable : Str := "not suitable as a job application".data

/-- `ResumeReviewService._is_invalid_resume_response`: the Sentinel
Detector. -/
def is_invalid_resume_response (response_text : Option Str) : Bool :=
  let normalized := normalize_llm_text response_text
  if normalized = [] then false
  else if normalized = sentinel then true
  else if containsSub (toLowerS sentinel) (toLowerS normalized) then true
  else
    let lowered := toLowerS normalized
    let condensed := pyStrip (collapseWs lowered)
    if containsSub phrNotAResume condensed || containsSub phrNotAResumeAcc condensed ||
       containsSub phrNotARsum condensed then true
    else if containsSub phrNotSuitable condensed then true
    else patterns.any (fun p => searchPat p lowered)

/-- `ResumeReviewService.MIN_EXTRACTED_TEXT_CHARS`. -/
def MIN_EXTRACTED_TEXT_CHARS : Nat := 50

/-- `ResumeReviewService.MAX_TEXT_CHARS_FOR_LLM`. -/
def MAX_TEXT_CHARS_FOR_LLM : Nat := 15000

/-- The truncation marker appended by `_truncate_for_llm`. -/
def truncationMarker : Str :=
  "\n\n[TRUNCATED: resume text exceeded max length]".data

/-- `ResumeReviewService._truncate_for_llm`. -/
def truncate_for_llm (text : Str) : Str :=
  if text.length ≤ MAX_TEXT_CHARS_FOR_LLM then text
  else text.take MAX_TEXT_CHARS_FOR_LLM ++ truncationMarker

/-- For `_clean_text`'s `re.sub(r"\n\s*\n", "\n\n", ...)`: looking at the
maximal whitespace run at the head of `s`, the suffix just after the last
newline in that run (`none` when the run holds no newline).  The bundled
bound certifies progress for `cleanNewlines`. -/
def lastNlSuffix : (s : Str) → Option { r : Str // r.length < s.length }
  | [] => none
  | c :: rest =>
    if isPyWs c then
      match lastNlSuffix rest with
      | some ⟨r, h⟩ => some ⟨r, by simpa using Nat.lt_succ_of_lt h⟩
      | none => if c = '\n' then some ⟨rest, by simp⟩ else none
    else none

/-- Python `re.sub(r"\n\s*\n", "\n\n", s)` on at most `fuel` characters:
each recursive step consumes at least one character, so `fuel = s.length`
always suffices (the fuel keeps the recursion structural, hence
kernel-evaluable). -/
def cleanNewlinesAux : Nat → Str → Str
  | _, [] => []
  | 0, s => s
  | fuel + 1, c :: rest =>
    if c = '\n' then
      match lastNlSuffix rest with
      | some ⟨r, _⟩ => '\n' :: '\n' :: cleanNewlinesAux fuel r
      | none => c :: cleanNewlinesAux fuel rest
    else c :: cleanNewlinesAux fuel rest

/-- Python `re.sub(r"\n\s*\n", "\n\n", s)`: leftmost, non-overlapping,
greedy replacement of blank-line runs by one blank line. -/
def cleanNewlines (s : Str) : Str := cleanNewlinesAux s.length s

/-- `ResumeReviewService._clean_text`. -/
def clean_text (text : Str) : Str :=
  if text = [] then []
  else pyStrip (cleanNewlines (collapseSpaceTab text))

/-- A positioned text block as returned by PyMuPDF's
`page.get_text("blocks")`: `(x0, y0, ..., text, ...)`; coordinates are
modelled as integers (the claims do not depend on the block order). -/
structure TextBlock where
  x : Int
  y : Int
  text : Str

/-- `blocks.sort(key=lambda b: (b[1], b[0]))`: is `a`'s key strictly below
`b`'s in the lexicographic order on (y, x)? -/
def blockLt (a b : TextBlock) : Bool :=
  a.y < b.y || (a.y == b.y && a.x < b.x)

/-- Stable insertion into a sorted block list (Python's sort is stable). -/
def insertBlock (b : TextBlock) : List TextBlock → List TextBlock
  | [] => [b]
  | x :: xs => if blockLt x b then x :: insertBlock b xs else b :: x :: xs

/-- Stable sort of the blocks of one page. -/
def sortBlocks : List TextBlock → List TextBlock
  | [] => []
  | b :: bs => insertBlock b (sortBlocks bs)

/-- `ResumeReviewService._extract_text_standard`.  The PyMuPDF collaborator
is opaque: `fitzAvailable` models whether the import succeeded, and `doc`
models `fitz.open` plus page iteration — `Except.error` when any library
call raises, otherwise the list of pages, each a list of blocks.  The
Python function catches every exception and returns `None`; the Lean
function is total, so "never raises" holds by construction. -/
def extract_text_standard (fitzAvailable : Bool)
    (doc : Except Unit (List (List TextBlock))) : Option Str :=
  if !fitzAvailable then none
  else
    match doc with
    | Except.error _ => none
    | Except.ok pages =>
      let full_text_parts := pages.flatMap (fun page => (sortBlocks page).map TextBlock.text)
      let cleaned_text := clean_text (joinNL full_text_parts)
      if pyStrip cleaned_text ≠ [] then some cleaned_text else none

/-- Outcome of one `review_resume` call: a returned review (the message
content, which may be null), an `InvalidResumeError`, or any other
exception propagated to the caller. -/
inductive ReviewResult
  | accepted : Option Str → ReviewResult
  | invalidResume : ReviewResult
  | failed : ReviewResult
deriving DecidableEq

/-- The opaque collaborators of `review_resume`: PDF page rendering
(`convert_from_path`) and the two LLM chat calls, each either an exception
or the returned message content (Python `Optional[str]`). -/
structure LLMEnv where
  renderResult : Except Unit (List Unit)
  textResp : Except Unit (Option Str)
  imageResp : Except Unit (Option Str)

/-- The path-selection condition of `review_resume`, line 170:
`if extracted_text and len(extracted_text.strip()) >= self.MIN_EXTRACTED_TEXT_CHARS`. -/
def usesTextPath (extracted : Option Str) : Bool :=
  match extracted with
  | none => false
  | some t => !t.isEmpty && decide (MIN_EXTRACTED_TEXT_CHARS ≤ (pyStrip t).length)

/-- Stage 1 of `review_resume`: the text-only review path. -/
def runTextPath (env : LLMEnv) : ReviewResult :=
  match env.textResp with
  | Except.error _ => ReviewResult.failed
  | Except.ok content =>
    if is_invalid_resume_response content then ReviewResult.invalidResume
    else ReviewResult.accepted content

/-- Stage 2 of `review_resume`: the image-based fallback path. -/
def runImagePath (env : LLMEnv) : ReviewResult :=
  match env.renderResult with
  | Except.error _ => ReviewResult.failed
  | Except.ok _ =>
    match env.imageResp with
    | Except.error _ => ReviewResult.failed
    | Except.ok content =>
      if is_invalid_resume_response content then ReviewResult.invalidResume
      else ReviewResult.accepted content

/-- `ResumeReviewService.review_resume`, with the extraction result and the
opaque collaborators as inputs (prompt construction is pure and does not
affect the control flow modelled here). -/
def review_resume (extracted : Option Str) (env : LLMEnv) : ReviewResult :=
  if usesTextPath extracted then runTextPath env else runImagePath env

/-- All phrases a token sequence can denote once whitespace runs are
collapsed to single spaces: `\s+` contributes a space, a class one of its
characters. -/
def expandToks : List Tok → List Str
  | [] => [[]]
  | Tok.lit c :: rest => (expandToks rest).map (fun ph => c :: ph)
  | Tok.cls cs :: rest => cs.flatMap (fun c => (expandToks rest).map (fun ph => c :: ph))
  | Tok.wsp :: rest => (expandToks rest).map (fun ph => ' ' :: ph)

/-- `Consumes toks s`: the token sequence matches exactly the string `s`. -/
inductive Consumes : List Tok → Str → Prop
  | nil : Consumes [] []
  | lit {c : Char} {rest : List Tok} {s : Str} :
      Consumes rest s → Consumes (Tok.lit c :: rest) (c :: s)
  | cls {c : Char} {cs : List Char} {rest : List Tok} {s : Str} :
      c ∈ cs → Consumes rest s → Consumes (Tok.cls cs :: rest) (c :: s)
  | wsp {w : Str} {rest : List Tok} {s : Str} :
      w ≠ [] → (∀ c ∈ w, isPyWs c = true) → Consumes rest s →
      Consumes (Tok.wsp :: rest) (w ++ s)

/-- The characters a single token can consume are never whitespace (for
literals and classes). -/
def tokCharsOk : Tok → Bool
  | Tok.lit c => !isPyWs c
  | Tok.cls cs => !cs.isEmpty && cs.all (fun c => !isPyWs c)
  | Tok.wsp => true

/-- No two adjacent `\s+` tokens. -/
def noAdjWsp : List Tok → Bool
  | [] => true
  | [_] => true
  | Tok.wsp :: Tok.wsp :: _ => false
  | _ :: rest => noAdjWsp rest

def isWspTok : Tok → Bool
  | Tok.wsp => true
  | _ => false

/-- Well-formedness of a pattern alternative: non-empty, characters of
literals/classes non-whitespace, no adjacent `\s+`, and the sequence starts
and ends with a literal or class. -/
def patOkToks (toks : List Tok) : Bool :=
  !toks.isEmpty && toks.all tokCharsOk && noAdjWsp toks &&
  !(toks.headD Tok.wsp |> isWspTok) && !(toks.getLastD Tok.wsp |> isWspTok)

/-- Head and last characters exist and are non-whitespace. -/
def edgeOk (ph : Str) : Bool :=
  (ph.head?).elim false (fun a => !isPyWs a) &&
  (ph.getLast?).elim false (fun a => !isPyWs a)

/-- The sentinel, lower-cased. -/
def sentinelLower : Str :=
  "the provided resume is invalid. please provide a valid resume for review.".data

/-- The whitespace-condensed, lower-cased text the detector inspects:
`re.sub(r"\s+", " ", normalized.lower()).strip()`. -/
def condensedOf (s : Str) : Str :=
  pyStrip (collapseWs (toLowerS (normalize_llm_text (some s))))

/-- Every whitespace-collapsed phrase whose presence in the condensed text
is implied by one of the detector's trigger conditions: the lower-cased
sentinel, the three hard-coded "not a resume" phrases, the
"not suitable" phrase, and the expansions of the twelve regex patterns. -/
def condensedPhrases : List Str :=
  [sentinelLower, phrNotAResume, phrNotAResumeAcc, phrNotARsum, phrNotSuitable] ++
  (patterns.flatMap (fun alts => alts.flatMap expandToks))

/-- A 62-character extracted text used as a concrete witness input. -/
def sampleExtracted : Str :=
  "John Doe. Senior software engineer with ten years experience.".data

/-- A short model answer that is not a rejection. -/
def sampleReview : Str := "Strong bullets and clear metrics.".data

/-- Collaborators answering the text call with `sampleReview`. -/
def envAccept : LLMEnv :=
  { renderResult := Except.ok [], textResp := Except.ok (some sampleReview),
    imageResp := Except.error () }

/-- Collaborators answering the text call with the sentinel. -/
def envReject : LLMEnv :=
  { renderResult := Except.ok [], textResp := Except.ok (some sentinel),
    imageResp := Except.error () }

/-- Collaborators answering the image call with the sentinel. -/
def envRejectImage : LLMEnv :=
  { renderResult := Except.ok [], textResp := Except.error (),
    imageResp := Except.ok (some sentinel) }

/-- A one-block page used as a concrete extraction witness. -/
def sampleDoc : Except Unit (List (List TextBlock)) :=
  Except.ok [[{ x := 0, y := 0, text := "John Doe".data }]]

/-- A fenced block whose body is itself wrapped in backticks: normalizing
it once yields a string that still starts and ends with a fence. -/
def nestedFenceText : Str := "```\n```code```\n```".data

/-- The fenced sentinel of Scenario 1. -/
def fencedSentinelLiteral : String :=
  "```The provided resume is INVALID. Please provide a valid resume for review.```"

/-- A response mentioning the word "documentation". -/
def docReviewText : Str := "This looks like documentation.".data

/-- The four Markdown section headers the prompt templates require. -/
def hdr1 : Str := "### 1. Executive Summary & Visual Audit".data

def hdr2 : Str := "### 2. Content & Narrative critique".data

def hdr3 : Str := "### 3. Critical Observations".data

def hdr4 : Str := "### 4. Strategic Recommendations (Top 3)".data

/-- A legitimate full review that mentions the word "documentation" while
discussing the document's look: no sentinel-like phrase appears. -/
def cexReviewText : Str :=
  "### 1. Executive Summary & Visual Audit\n**ATS/Visual Score**: 72\n**Professional Perception**: Clean and focused profile.\n\n### 2. Content & Narrative critique\n*   **Impact Analysis**: Strong metrics throughout.\n\n### 3. Critical Observations\n*   The skills section reads like API documentation in places.\n\n### 4. Strategic Recommendations (Top 3)\n1.  **Quantify**: Add concrete numbers.".data

/-- A legitimate full review avoiding every phrase the detector reacts
to. -/
def goodReviewText : Str :=
  "### 1. Executive Summary & Visual Audit\n**ATS/Visual Score**: 72\n**Professional Perception**: The resume reads clearly and presents a strong profile.\n\n### 2. Content & Narrative critique\n*   **Impact Analysis**: Good use of metrics.\n*   **Keyword Strategy**: Solid alignment with industry terms.\n\n### 3. Critical Observations\n*   Some bullets are long.\n\n### 4. Strategic Recommendations (Top 3)\n1.  **Quantify**: Add more numbers.\n2.  **Trim**: Shorten bullets.\n3.  **Tailor**: Match the target role.".data

/- ------------------------------------------------------------------ -/
/- Helper lemmas about the string model.                              -/
/- ------------------------------------------------------------------ -/

theorem isPyWs_iff_mem (c : Char) : isPyWs c = true ↔ c ∈ pyWsChars := by
  simp [isPyWs, List.contains]

theorem isLineBreak_iff_mem (c : Char) : isLineBreak c = true ↔ c ∈ lineBreakChars := by
  simp [isLineBreak, List.contains]

theorem toLowerC_fix_ws {c : Char} (h : isPyWs c = true) : toLowerC c = c := by
  have hm := (isPyWs_iff_mem c).mp h
  have : ∀ d ∈ pyWsChars, toLowerC d = d := by decide
  exact this c hm

theorem toLowerC_fix_break {c : Char} (h : isLineBreak c = true) : toLowerC c = c := by
  have hm := (isLineBreak_iff_mem c).mp h
  have : ∀ d ∈ lineBreakChars, toLowerC d = d := by decide
  exact this c hm

theorem toLowerC_ws_of {c d : Char} (h : toLowerC c = d) (hd : isPyWs d = false) :
    isPyWs c = false := by
  by_cases hc : isPyWs c = true
  · rw [toLowerC_fix_ws hc] at h; subst h; exact absurd hc (by simp [hd])
  · simpa using hc

theorem toLowerC_break_of {c d : Char} (h : toLowerC c = d) (hd : isLineBreak d = false) :
    isLineBreak c = false := by
  by_cases hc : isLineBreak c = true
  · rw [toLowerC_fix_break hc] at h; subst h; exact absurd hc (by simp [hd])
  · simpa using hc

theorem toLowerC_bt_of {c d : Char} (h : toLowerC c = d) (hd : d ≠ btChar) : c ≠ btChar := by
  intro hc; subst hc
  exact hd (by rw [← h]; decide)

theorem head_dropWhile_false (p : Char → Bool) :
    ∀ (l : Str) (c : Char), (l.dropWhile p).head? = some c → p c = false := by
  intro l
  induction l with
  | nil => intro c h; simp [List.dropWhile] at h
  | cons d rest ih =>
    intro c h
    rw [List.dropWhile_cons] at h
    by_cases hd : p d = true
    · rw [if_pos hd] at h; exact ih c h
    · rw [if_neg hd] at h
      simp at h
      subst h
      simpa using hd

theorem dropWhile_eq_self_of_head (p : Char → Bool) (l : Str)
    (h : ∀ c, l.head? = some c → p c = false) : l.dropWhile p = l := by
  cases l with
  | nil => rfl
  | cons d rest =>
    rw [List.dropWhile_cons, if_neg]
    simp [h d rfl]

theorem pyStrip_head {s : Str} {c : Char} (h : (pyStrip s).head? = some c) :
    isPyWs c = false := by
  have h1 : pyStrip s <+: s.dropWhile isPyWs := by
    rw [← List.reverse_suffix]
    have := List.dropWhile_suffix (l := (s.dropWhile isPyWs).reverse) isPyWs
    simpa [pyStrip, dropEndWhile] using this
  obtain ⟨k, hk⟩ := h1
  cases hps : pyStrip s with
  | nil => rw [hps] at h; simp at h
  | cons a tl =>
    rw [hps] at h hk
    have hac : a = c := by simpa using h
    have hh : (s.dropWhile isPyWs).head? = some a := by rw [← hk]; rfl
    have hres := head_dropWhile_false isPyWs s a hh
    rw [← hac]
    exact hres

theorem pyStrip_getLast {s : Str} {c : Char} (h : (pyStrip s).getLast? = some c) :
    isPyWs c = false := by
  have h1 : (pyStrip s).reverse.head? = some c := by
    rw [List.head?_reverse]; exact h
  have h2 : (pyStrip s).reverse = ((s.dropWhile isPyWs).reverse).dropWhile isPyWs := by
    simp [pyStrip, dropEndWhile]
  rw [h2] at h1
  exact head_dropWhile_false isPyWs _ c h1

theorem pyStrip_eq_self {s : Str}
    (h1 : ∀ c, s.head? = some c → isPyWs c = false)
    (h2 : ∀ c, s.getLast? = some c → isPyWs c = false) : pyStrip s = s := by
  have hd : s.dropWhile isPyWs = s := dropWhile_eq_self_of_head isPyWs s h1
  have hr : s.reverse.dropWhile isPyWs = s.reverse := by
    apply dropWhile_eq_self_of_head
    intro c hc
    rw [List.head?_reverse] at hc
    exact h2 c hc
  simp [pyStrip, dropEndWhile, hd, hr]

theorem pyStrip_idem (s : Str) : pyStrip (pyStrip s) = pyStrip s := by
  apply pyStrip_eq_self
  · intro c h; exact pyStrip_head h
  · intro c h; exact pyStrip_getLast h

theorem normalize_llm_text_stripped (r : Option Str) :
    pyStrip (normalize_llm_text r) = normalize_llm_text r := by
  match r with
  | none => rfl
  | some t =>
    by_cases ht : t = []
    · simp [normalize_llm_text, ht, pyStrip, dropEndWhile]
    · rw [normalize_llm_text, if_neg ht]
      exact pyStrip_idem _

theorem containsSub_iff (n : Str) : ∀ h : Str, containsSub n h = true ↔ n <:+: h := by
  intro h
  induction h with
  | nil =>
    simp only [containsSub]
    rw [List.isPrefixOf_iff_prefix, List.prefix_nil, List.infix_nil]
  | cons c rest ih =>
    simp only [containsSub]
    rw [Bool.or_eq_true, List.isPrefixOf_iff_prefix, ih, List.infix_cons_iff]

theorem containsSub_self (n : Str) : containsSub n n = true :=
  (containsSub_iff n n).mpr (List.infix_refl n)

/- ------------------------------------------------------------------ -/
/- C5: the truncation bound.                                          -/
/- ------------------------------------------------------------------ -/

/-- C5 — Truncation bound: text longer than the 15000-character budget is
truncated to a string ending in the truncation marker, of length at most
budget + marker length; text within the budget is returned unchanged. -/
theorem truncate_for_llm_bound (s : Str) :
    (s.length ≤ MAX_TEXT_CHARS_FOR_LLM → truncate_for_llm s = s) ∧
    (MAX_TEXT_CHARS_FOR_LLM < s.length →
      truncationMarker <:+ truncate_for_llm s ∧
      (truncate_for_llm s).length ≤ MAX_TEXT_CHARS_FOR_LLM + truncationMarker.length) := by
  constructor
  · intro h
    simp [truncate_for_llm, h]
  · intro h
    have hnot : ¬ s.length ≤ MAX_TEXT_CHARS_FOR_LLM := by omega
    rw [truncate_for_llm, if_neg hnot]
    constructor
    · exact ⟨s.take MAX_TEXT_CHARS_FOR_LLM, rfl⟩
    · rw [List.length_append, List.length_take]
      omega

/-- Witness for C5 at a concrete 15001-character input. -/
theorem truncate_for_llm_bound_witness :
    MAX_TEXT_CHARS_FOR_LLM < (List.replicate 15001 'a').length ∧
    (truncationMarker <:+ truncate_for_llm (List.replicate 15001 'a') ∧
      (truncate_for_llm (List.replicate 15001 'a')).length ≤
        MAX_TEXT_CHARS_FOR_LLM + truncationMarker.length) := by
  have h : MAX_TEXT_CHARS_FOR_LLM < (List.replicate 15001 'a').length := by
    rw [List.length_replicate, MAX_TEXT_CHARS_FOR_LLM]
    omega
  exact ⟨h, (truncate_for_llm_bound (List.replicate 15001 'a')).2 h⟩

/- ------------------------------------------------------------------ -/
/- C10: truncation is idempotent.                                     -/
/- ------------------------------------------------------------------ -/

/-- C10 — Truncation idempotence: re-truncating already-truncated text
reproduces the same 15000-character prefix followed by one marker. -/
theorem truncate_for_llm_idem (s : Str) :
    truncate_for_llm (truncate_for_llm s) = truncate_for_llm s := by
  by_cases h : s.length ≤ MAX_TEXT_CHARS_FOR_LLM
  · have hs : truncate_for_llm s = s := by rw [truncate_for_llm, if_pos h]
    rw [hs, hs]
  · have hs : truncate_for_llm s = s.take MAX_TEXT_CHARS_FOR_LLM ++ truncationMarker := by
      rw [truncate_for_llm, if_neg h]
    have hlen : (s.take MAX_TEXT_CHARS_FOR_LLM).length = MAX_TEXT_CHARS_FOR_LLM := by
      rw [List.length_take]; omega
    have hm : 0 < truncationMarker.length := by decide
    have hlong : ¬ (truncate_for_llm s).length ≤ MAX_TEXT_CHARS_FOR_LLM := by
      rw [hs, List.length_append, hlen]; omega
    conv_lhs => rw [truncate_for_llm]
    rw [if_neg hlong, hs]
    congr 1
    have htl := List.take_left (s.take MAX_TEXT_CHARS_FOR_LLM) truncationMarker
    rwa [hlen] at htl

/- ------------------------------------------------------------------ -/
/- C7: empty responses are not rejections.                            -/
/- ------------------------------------------------------------------ -/

/-- C7 — A model output that is absent, empty, or reduces to the empty
string after normalization is not classified as a rejection. -/
theorem empty_response_not_rejection (r : Option Str)
    (h : normalize_llm_text r = []) : is_invalid_resume_response r = false := by
  simp [is_invalid_resume_response, h]

/-- Witness for C7: the absent response and the empty response. -/
theorem empty_response_not_rejection_witness :
    is_invalid_resume_response none = false ∧
    is_invalid_resume_response (some []) = false :=
  ⟨empty_response_not_rejection none rfl,
   empty_response_not_rejection (some []) (by decide)⟩

/- ------------------------------------------------------------------ -/
/- C3: path selection threshold.                                      -/
/- ------------------------------------------------------------------ -/

/-- C3 — `review_resume` takes the text-only path exactly when extraction
returned a non-null string whose trimmed length is at least
`MIN_EXTRACTED_TEXT_CHARS` (50); otherwise it runs the image path. -/
theorem path_selection_threshold (ext : Option Str) (env : LLMEnv) :
    (usesTextPath ext = true ↔
      ∃ t, ext = some t ∧ MIN_EXTRACTED_TEXT_CHARS ≤ (pyStrip t).length) ∧
    (usesTextPath ext = false → review_resume ext env = runImagePath env) := by
  constructor
  · constructor
    · intro h
      match ext with
      | none => simp [usesTextPath] at h
      | some t =>
        refine ⟨t, rfl, ?_⟩
        simp [usesTextPath] at h
        exact h.2
    · rintro ⟨t, rfl, hlen⟩
      have ht : t ≠ [] := by
        intro he
        subst he
        simp [pyStrip, dropEndWhile, MIN_EXTRACTED_TEXT_CHARS] at hlen
      simp [usesTextPath, hlen, ht]
  · intro h
    rw [review_resume, h]
    simp

/-- Witness for C3: a 62-character extraction picks the text path, a null
extraction runs the image path. -/
theorem path_selection_threshold_witness :
    usesTextPath (some sampleExtracted) = true ∧
    review_resume none envAccept = runImagePath envAccept := by
  constructor
  · exact (path_selection_threshold (some sampleExtracted) envAccept).1.mpr
      ⟨sampleExtracted, rfl, by decide⟩
  · exact (path_selection_threshold none envAccept).2 rfl

/- ------------------------------------------------------------------ -/
/- C1: sentinel detection gates acceptance.                           -/
/- ------------------------------------------------------------------ -/

/-- C1 — A response is returned as a successful review only if the
rejection detector is false on it; whenever the detector is true on the
response of the taken path (text or image), `review_resume` raises
`InvalidResumeError` instead of returning it. -/
theorem sentinel_gates_acceptance (ext : Option Str) (env : LLMEnv) (r : Option Str) :
    (review_resume ext env = ReviewResult.accepted r →
      is_invalid_resume_response r = false) ∧
    (usesTextPath ext = true → env.textResp = Except.ok r →
      is_invalid_resume_response r = true →
      review_resume ext env = ReviewResult.invalidResume) ∧
    (usesTextPath ext = false → (∃ imgs, env.renderResult = Except.ok imgs) →
      env.imageResp = Except.ok r → is_invalid_resume_response r = true →
      review_resume ext env = ReviewResult.invalidResume) := by
  refine ⟨?_, ?_, ?_⟩
  · intro hacc
    rw [review_resume] at hacc
    by_cases hp : usesTextPath ext = true
    · rw [if_pos hp, runTextPath] at hacc
      split at hacc
      · exact ReviewResult.noConfusion hacc
      · split at hacc
        · exact ReviewResult.noConfusion hacc
        · rename_i hinv
          cases hacc
          simpa using hinv
    · rw [if_neg hp, runImagePath] at hacc
      split at hacc
      · exact ReviewResult.noConfusion hacc
      · split at hacc
        · exact ReviewResult.noConfusion hacc
        · split at hacc
          · exact ReviewResult.noConfusion hacc
          · rename_i hinv
            cases hacc
            simpa using hinv
  · intro hp htr hinv
    rw [review_resume, if_pos hp, runTextPath, htr]
    simp [hinv]
  · rintro hp ⟨imgs, hrr⟩ hir hinv
    rw [review_resume, if_neg (by simp [hp]), runImagePath, hrr, hir]
    simp [hinv]

/-- Witness for C1: a clean answer is accepted and passes the detector; the
sentinel answer raises `InvalidResumeError` on both paths. -/
theorem sentinel_gates_acceptance_witness :
    is_invalid_resume_response (some sampleReview) = false ∧
    review_resume (some sampleExtracted) envReject = ReviewResult.invalidResume ∧
    review_resume none envRejectImage = ReviewResult.invalidResume :=
  ⟨(sentinel_gates_acceptance (some sampleExtracted) envAccept (some sampleReview)).1
     (by decide),
   (sentinel_gates_acceptance (some sampleExtracted) envReject (some sentinel)).2.1
     (by decide) rfl (by decide),
   (sentinel_gates_acceptance none envRejectImage (some sentinel)).2.2
     rfl ⟨[], rfl⟩ rfl (by decide)⟩

/- ------------------------------------------------------------------ -/
/- C8: text extraction never raises and collapses failures to None.   -/
/- ------------------------------------------------------------------ -/

/-- C8 — `_extract_text_standard` is total (the Lean model cannot raise):
it returns `none` when the library is unavailable or any library call
raises, it returns `none` when the cleaned text is whitespace-only, and
any returned text is a non-empty cleaned string. -/
theorem extract_text_standard_total (fa : Bool)
    (doc : Except Unit (List (List TextBlock))) :
    (fa = false → extract_text_standard fa doc = none) ∧
    (∀ u : Unit, doc = Except.error u → extract_text_standard fa doc = none) ∧
    (∀ pages, doc = Except.ok pages →
      pyStrip (clean_text (joinNL (pages.flatMap
        (fun page => (sortBlocks page).map TextBlock.text)))) = [] →
      extract_text_standard fa doc = none) ∧
    (∀ t, extract_text_standard fa doc = some t →
      t ≠ [] ∧ pyStrip t ≠ [] ∧
      ∃ parts, t = clean_text (joinNL parts)) := by
  refine ⟨?_, ?_, ?_, ?_⟩
  · intro h
    subst h
    rfl
  · intro u h
    subst h
    cases fa <;> rfl
  · intro pages h hempty
    subst h
    cases fa
    · rfl
    · simp [extract_text_standard, hempty]
  · intro t h
    match fa with
    | false => simp [extract_text_standard] at h
    | true =>
      match doc with
      | Except.error u => simp [extract_text_standard] at h
      | Except.ok pages =>
        rw [extract_text_standard] at h
        simp only [Bool.not_true, Bool.false_eq_true, if_false] at h
        by_cases hne : pyStrip (clean_text (joinNL (pages.flatMap
            (fun page => (sortBlocks page).map TextBlock.text)))) = []
        · simp [hne] at h
        · simp [hne] at h
          refine ⟨?_, ?_, ?_⟩
          · intro ht
            apply hne
            rw [h, ht]
            rfl
          · rw [← h]; exact hne
          · exact ⟨_, h.symm⟩

/-- Witness for C8: library unavailable, a raising library call, an empty
page list, and a one-block page that yields non-empty text. -/
theorem extract_text_standard_total_witness :
    extract_text_standard false (Except.ok []) = none ∧
    extract_text_standard true (Except.error ()) = none ∧
    extract_text_standard true (Except.ok []) = none ∧
    ("John Doe".data ≠ ([] : Str) ∧ pyStrip "John Doe".data ≠ [] ∧
      ∃ parts, "John Doe".data = clean_text (joinNL parts)) := by
  refine ⟨?_, ?_, ?_, ?_⟩
  · exact (extract_text_standard_total false (Except.ok [])).1 rfl
  · exact (extract_text_standard_total true (Except.error ())).2.1 () rfl
  · exact (extract_text_standard_total true (Except.ok [])).2.2.1 [] rfl (by decide)
  · exact (extract_text_standard_total true sampleDoc).2.2.2 ("John Doe".data) (by decide)

/- ------------------------------------------------------------------ -/
/- C6: normalization idempotence (corrected).                         -/
/- ------------------------------------------------------------------ -/

/-- Counterexample to C6 as stated: on `nestedFenceText` the first
normalization returns a string that itself starts and ends with three
backticks, and a second normalization strips it further, so
`_normalize_llm_text` is not a fixed point on its own output. -/
theorem normalize_llm_text_not_idem_cex :
    normalize_llm_text (some (normalize_llm_text (some nestedFenceText))) ≠
      normalize_llm_text (some nestedFenceText) := by decide

/-- C6 (amended) — Normalization is a fixed point on its own output
whenever the normalized string does not itself both start and end with the
``` fence marker (the counterexample shows the restriction is needed). -/
theorem normalize_llm_text_idem_of (s : Str)
    (h : ¬(bt3.isPrefixOf (normalize_llm_text (some s)) = true ∧
           bt3.isSuffixOf (normalize_llm_text (some s)) = true)) :
    normalize_llm_text (some (normalize_llm_text (some s))) =
      normalize_llm_text (some s) := by
  set n := normalize_llm_text (some s) with hn
  have hstr : pyStrip n = n := by rw [hn]; exact normalize_llm_text_stripped (some s)
  by_cases hne : n = []
  · rw [hne]; rfl
  · have hcond : (bt3.isPrefixOf n && bt3.isSuffixOf n) = false := by
      cases hxp : bt3.isPrefixOf n <;> cases hxs : bt3.isSuffixOf n <;> simp_all
    rw [normalize_llm_text, if_neg hne]
    simp only [strip_code_fences]
    rw [hstr, hcond]
    simp [hstr]

/-- Witness for the amended C6 at a fence-free review string. -/
theorem normalize_llm_text_idem_of_witness :
    normalize_llm_text (some (normalize_llm_text (some sampleReview))) =
      normalize_llm_text (some sampleReview) :=
  normalize_llm_text_idem_of sampleReview (by decide)

/- ------------------------------------------------------------------ -/
/- C2: the sentinel is detected, re-cased and/or fenced.              -/
/- ------------------------------------------------------------------ -/

theorem detector_true_of_contains (r : Option Str)
    (hne : normalize_llm_text r ≠ [])
    (hcont : containsSub (toLowerS sentinel) (toLowerS (normalize_llm_text r)) = true) :
    is_invalid_resume_response r = true := by
  simp only [is_invalid_resume_response]
  rw [if_neg hne]
  by_cases h2 : normalize_llm_text r = sentinel
  · rw [if_pos h2]
  · rw [if_neg h2, if_pos hcont]

theorem splitlinesAux_no_break :
    ∀ (s acc : Str), (∀ c ∈ s, isLineBreak c = false) → ¬(s = [] ∧ acc = []) →
      splitlinesAux s acc = [acc.reverse ++ s] := by
  intro s
  induction s with
  | nil =>
    intro acc h hno
    have hacc : acc ≠ [] := fun he => hno ⟨rfl, he⟩
    simp [splitlinesAux, hacc]
  | cons c rest ih =>
    intro acc h hno
    have hc : isLineBreak c = false := h c (List.mem_cons_self c rest)
    have hcr : (c == '\r') = false := by
      have : c ≠ '\r' := by
        intro hcc; subst hcc; exact absurd hc (by decide)
      simpa using this
    cases rest with
    | nil => simp [splitlinesAux, hc]
    | cons c2 rest2 =>
      rw [splitlinesAux]
      rw [hcr]
      simp only [Bool.false_and, Bool.false_eq_true, if_false]
      rw [hc]
      simp only [Bool.false_eq_true, if_false]
      rw [ih (c :: acc) (fun d hd => h d (List.mem_cons_of_mem c hd)) (by simp)]
      simp

theorem splitlines_single {s : Str} (hne : s ≠ [])
    (h : ∀ c ∈ s, isLineBreak c = false) : splitlinesPy s = [s] := by
  rw [splitlinesPy, splitlinesAux_no_break s [] h (fun hp => hne hp.1)]
  simp

/-- C2 — Every re-casing of the exact sentinel literal is detected as a
rejection, bare or enclosed in a ``` code fence. -/
theorem sentinel_detected_recased_fenced (core : Str)
    (hl : toLowerS core = toLowerS sentinel) :
    is_invalid_resume_response (some core) = true ∧
    is_invalid_resume_response (some (bt3 ++ core ++ bt3)) = true := by
  have hcne : core ≠ [] := by
    intro he; rw [he] at hl; exact absurd hl.symm (by decide)
  obtain ⟨c, rest, hcore⟩ : ∃ c rest, core = c :: rest := by
    cases core with
    | nil => exact absurd rfl hcne
    | cons c rest => exact ⟨c, rest, rfl⟩
  have hheadlow : toLowerC c = 't' := by
    have h1 : (toLowerS core).head? = some 't' := by rw [hl]; decide
    rw [hcore] at h1
    simpa [toLowerS] using h1
  have h2 : (toLowerS core).getLast? = some '.' := by rw [hl]; decide
  rw [toLowerS, List.getLast?_map] at h2
  obtain ⟨d, hd, hdl⟩ : ∃ d, core.getLast? = some d ∧ toLowerC d = '.' := by
    match hx : core.getLast? with
    | none => rw [hx] at h2; simp at h2
    | some d =>
      rw [hx] at h2
      simp at h2
      exact ⟨d, rfl, h2⟩
  have hcws : isPyWs c = false := toLowerC_ws_of hheadlow (by decide)
  have hcbt : c ≠ btChar := toLowerC_bt_of hheadlow (by decide)
  have hdws : isPyWs d = false := toLowerC_ws_of hdl (by decide)
  have hdbt : d ≠ btChar := toLowerC_bt_of hdl (by decide)
  have hcore_head : ∀ x, core.head? = some x → isPyWs x = false := by
    intro x hx
    rw [hcore] at hx
    have hcx : c = x := by simpa using hx
    rw [← hcx]; exact hcws
  have hcore_last : ∀ x, core.getLast? = some x → isPyWs x = false := by
    intro x hx
    rw [hd] at hx
    have hdx : d = x := by simpa using hx
    rw [← hdx]; exact hdws
  have hstrip : pyStrip core = core := pyStrip_eq_self hcore_head hcore_last
  have hnopre : bt3.isPrefixOf core = false := by
    rw [hcore]
    by_cases hb : bt3.isPrefixOf (c :: rest) = true
    · exfalso
      obtain ⟨k, hk⟩ := List.isPrefixOf_iff_prefix.mp hb
      rw [bt3] at hk
      injection hk with h1 _
      exact hcbt h1.symm
    · simp only [Bool.not_eq_true] at hb
      exact hb
  have hscf : strip_code_fences core = core := by
    simp only [strip_code_fences]
    rw [hstrip, hnopre]
    simp
  have hnorm : normalize_llm_text (some core) = core := by
    rw [normalize_llm_text, if_neg hcne, hscf, hstrip]
  constructor
  · exact detector_true_of_contains (some core) (by rw [hnorm]; exact hcne)
      (by rw [hnorm, hl]; exact containsSub_self _)
  · have hb3ne : bt3 ≠ [] := by rw [bt3]; simp
    have hbcne : bt3 ++ core ≠ [] := by
      intro habs
      rw [bt3] at habs
      simp at habs
    have hsne : bt3 ++ core ++ bt3 ≠ [] := by
      intro habs
      exact hbcne (List.append_eq_nil.mp habs).1
    have hshead : ∀ x, (bt3 ++ core ++ bt3).head? = some x → isPyWs x = false := by
      intro x hx
      rw [List.head?_append_of_ne_nil _ hbcne, List.head?_append_of_ne_nil _ hb3ne] at hx
      have hbx : btChar = x := by
        rw [bt3] at hx
        simpa using hx
      rw [← hbx]; decide
    have hslast : ∀ x, (bt3 ++ core ++ bt3).getLast? = some x → isPyWs x = false := by
      intro x hx
      rw [List.getLast?_append_of_ne_nil _ hb3ne] at hx
      have hbx : btChar = x := by
        rw [bt3] at hx
        simpa using hx
      rw [← hbx]; decide
    have hstrips : pyStrip (bt3 ++ core ++ bt3) = bt3 ++ core ++ bt3 :=
      pyStrip_eq_self hshead hslast
    have hspre : bt3.isPrefixOf (bt3 ++ core ++ bt3) = true := by
      rw [List.isPrefixOf_iff_prefix]
      exact ⟨core ++ bt3, by rw [List.append_assoc]⟩
    have hssuf : bt3.isSuffixOf (bt3 ++ core ++ bt3) = true := by
      rw [List.isSuffixOf_iff_suffix]
      exact ⟨bt3 ++ core, rfl⟩
    have hnocr : ∀ x ∈ bt3 ++ core ++ bt3, isLineBreak x = false := by
      intro x hx
      have hbt_break : isLineBreak btChar = false := by decide
      rcases List.mem_append.mp hx with hx1 | hx2
      · rcases List.mem_append.mp hx1 with hx3 | hx4
        · have hxb : x = btChar := by
            rw [bt3] at hx3
            simpa using hx3
          rw [hxb]; exact hbt_break
        · have hmap : toLowerC x ∈ toLowerS sentinel := by
            rw [← hl]
            exact List.mem_map_of_mem toLowerC hx4
          have hall : ∀ y ∈ toLowerS sentinel, isLineBreak y = false := by decide
          exact toLowerC_break_of rfl (hall _ hmap)
      · have hxb : x = btChar := by
          rw [bt3] at hx2
          simpa using hx2
        rw [hxb]; exact hbt_break
    have hlines : splitlinesPy (bt3 ++ core ++ bt3) = [bt3 ++ core ++ bt3] :=
      splitlines_single hsne hnocr
    have hcbtb : isBt c = false := by simp [isBt, hcbt]
    have hdbtb : isBt d = false := by simp [isBt, hdbt]
    have hdw1 : (bt3 ++ core ++ bt3).dropWhile isBt = core ++ bt3 := by
      rw [bt3, hcore]
      simp only [List.cons_append, List.nil_append, List.dropWhile_cons]
      have hbt : isBt btChar = true := by decide
      rw [hbt, hcbtb]
      simp
    have hdw2 : dropEndWhile isBt (core ++ bt3) = core := by
      rw [dropEndWhile, List.reverse_append]
      have hrb : (bt3 : Str).reverse = [btChar, btChar, btChar] := by rw [bt3]; rfl
      rw [hrb]
      have hbt : isBt btChar = true := by decide
      simp only [List.cons_append, List.nil_append, List.dropWhile_cons]
      rw [hbt]
      simp only [if_true]
      have hdwr : List.dropWhile isBt core.reverse = core.reverse := by
        apply dropWhile_eq_self_of_head
        intro x hx
        rw [List.head?_reverse, hd] at hx
        have hdx : d = x := by simpa using hx
        rw [← hdx]
        exact hdbtb
      rw [hdwr]
      simp
    have hstripbt : stripBt (bt3 ++ core ++ bt3) = core := by
      rw [stripBt, hdw1]
      exact hdw2
    have hscfs : strip_code_fences (bt3 ++ core ++ bt3) = core := by
      simp only [strip_code_fences]
      rw [hstrips, hspre, hssuf]
      simp only [Bool.and_self, if_true]
      rw [hlines]
      rw [if_neg (by simp)]
      rw [hstripbt]
      exact hstrip
    have hnorms : normalize_llm_text (some (bt3 ++ core ++ bt3)) = core := by
      rw [normalize_llm_text, if_neg hsne, hscfs, hstrip]
    exact detector_true_of_contains (some (bt3 ++ core ++ bt3))
      (by rw [hnorms]; exact hcne)
      (by rw [hnorms, hl]; exact containsSub_self _)

/-- Witness for C2: the sentinel itself and the fenced Scenario-1 input. -/
theorem sentinel_detected_recased_fenced_witness :
    is_invalid_resume_response (some fencedSentinelLiteral.data) = true ∧
    is_invalid_resume_response (some sentinel) = true := by
  have h := sentinel_detected_recased_fenced sentinel rfl
  constructor
  · have heq : fencedSentinelLiteral.data = bt3 ++ sentinel ++ bt3 := by decide
    rw [heq]; exact h.2
  · exact h.1

/- ------------------------------------------------------------------ -/
/- C9: document-type keywords alone trigger rejection.                -/
/- ------------------------------------------------------------------ -/

/-- C9 — If the response is non-empty after normalization and its
fence-stripped lower-cased text matches one of the document-type keyword
patterns (`documentation`, `command reference`, `technical manual`,
`technical guide`, `table of contents`, word-boundary-aware), the detector
classifies it as a rejection regardless of anything else in the text. -/
theorem keyword_triggers_rejection (s : Str)
    (hne : normalize_llm_text (some s) ≠ [])
    (hpat : (searchPat patDocumentation (toLowerS (normalize_llm_text (some s))) ||
             searchPat patCommandRef (toLowerS (normalize_llm_text (some s))) ||
             searchPat patTechManual (toLowerS (normalize_llm_text (some s))) ||
             searchPat patTechGuide (toLowerS (normalize_llm_text (some s))) ||
             searchPat patTableOfContents (toLowerS (normalize_llm_text (some s)))) = true) :
    is_invalid_resume_response (some s) = true := by
  simp only [is_invalid_resume_response]
  rw [if_neg hne]
  by_cases h1 : normalize_llm_text (some s) = sentinel
  · rw [if_pos h1]
  · rw [if_neg h1]
    by_cases h2 : containsSub (toLowerS sentinel)
        (toLowerS (normalize_llm_text (some s))) = true
    · rw [if_pos h2]
    · rw [if_neg h2]
      by_cases h3 : (containsSub phrNotAResume
            (pyStrip (collapseWs (toLowerS (normalize_llm_text (some s))))) ||
          containsSub phrNotAResumeAcc
            (pyStrip (collapseWs (toLowerS (normalize_llm_text (some s))))) ||
          containsSub phrNotARsum
            (pyStrip (collapseWs (toLowerS (normalize_llm_text (some s)))))) = true
      · rw [if_pos h3]
      · rw [if_neg h3]
        by_cases h4 : containsSub phrNotSuitable
            (pyStrip (collapseWs (toLowerS (normalize_llm_text (some s))))) = true
        · rw [if_pos h4]
        · rw [if_neg h4]
          rw [List.any_eq_true]
          rcases (by simpa using hpat :
              (((searchPat patDocumentation (toLowerS (normalize_llm_text (some s))) = true ∨
              searchPat patCommandRef (toLowerS (normalize_llm_text (some s))) = true) ∨
              searchPat patTechManual (toLowerS (normalize_llm_text (some s))) = true) ∨
              searchPat patTechGuide (toLowerS (normalize_llm_text (some s))) = true) ∨
              searchPat patTableOfContents (toLowerS (normalize_llm_text (some s))) = true)
            with ((((h | h) | h) | h) | h)
          · exact ⟨patDocumentation, by simp [patterns], h⟩
          · exact ⟨patCommandRef, by simp [patterns], h⟩
          · exact ⟨patTechManual, by simp [patterns], h⟩
          · exact ⟨patTechGuide, by simp [patterns], h⟩
          · exact ⟨patTableOfContents, by simp [patterns], h⟩

/-- Witness for C9: a short response containing only the word
"documentation" as trigger. -/
theorem keyword_triggers_rejection_witness :
    is_invalid_resume_response (some docReviewText) = true :=
  keyword_triggers_rejection docReviewText (by decide) (by decide)

/- ------------------------------------------------------------------ -/
/- Infrastructure for C4: infix-preservation through stripping and    -/
/- whitespace collapsing, and soundness of the pattern matcher.       -/
/- ------------------------------------------------------------------ -/

theorem infix_dropWhile {p : Char → Bool} {n : Str} (c0 : Char)
    (hn : n.head? = some c0) (hc0 : p c0 = false) :
    ∀ x : Str, n <:+: x → n <:+: x.dropWhile p := by
  intro x
  induction x with
  | nil =>
    intro h
    rw [List.infix_nil] at h
    subst h
    simp at hn
  | cons d rest ih =>
    intro h
    rw [List.dropWhile_cons]
    by_cases hd : p d = true
    · rw [if_pos hd]
      rcases List.infix_cons_iff.mp h with hpre | hinf
      · exfalso
        obtain ⟨k, hk⟩ := hpre
        cases n with
        | nil => simp at hn
        | cons a n' =>
          injection hk with h1 _
          have ha : a = c0 := by simpa using hn
          rw [← h1, ha, hc0] at hd
          cases hd
      · exact ih hinf
    · rw [if_neg hd]
      exact h

theorem infix_pyStrip {n x : Str} (hn : n ≠ [])
    (hh : ∀ c, n.head? = some c → isPyWs c = false)
    (hl : ∀ c, n.getLast? = some c → isPyWs c = false)
    (h : n <:+: x) : n <:+: pyStrip x := by
  obtain ⟨c0, n', hcons⟩ : ∃ c0 n', n = c0 :: n' := by
    cases n with
    | nil => exact absurd rfl hn
    | cons a b => exact ⟨a, b, rfl⟩
  have hc0 : n.head? = some c0 := by rw [hcons]; rfl
  have step1 : n <:+: x.dropWhile isPyWs :=
    infix_dropWhile c0 hc0 (hh c0 hc0) x h
  obtain ⟨d0, hd0⟩ : ∃ d0, n.getLast? = some d0 := by
    match hx : n.getLast? with
    | some d0 => exact ⟨d0, rfl⟩
    | none => exact absurd (List.getLast?_eq_none_iff.mp hx) hn
  have hrev : n.reverse <:+: (x.dropWhile isPyWs).reverse := List.reverse_infix.mpr step1
  have hd0h : n.reverse.head? = some d0 := by rw [List.head?_reverse]; exact hd0
  have step2 : n.reverse <:+: ((x.dropWhile isPyWs).reverse).dropWhile isPyWs :=
    infix_dropWhile d0 hd0h (hl d0 hd0) _ hrev
  have step3 : n <:+: (((x.dropWhile isPyWs).reverse).dropWhile isPyWs).reverse := by
    apply List.reverse_infix.mp
    simpa [List.reverse_reverse] using step2
  simpa [pyStrip, dropEndWhile] using step3

theorem cw_flag_irrel (p : Char → Bool) (b : Bool) (s : Str)
    (hs : s = [] ∨ ∃ c t, s = c :: t ∧ p c = false) :
    collapseRunsAux p b s = collapseRunsAux p false s := by
  rcases hs with rfl | ⟨c, t, rfl, hc⟩
  · rfl
  · simp [collapseRunsAux, hc]

theorem cw_ws_skip (p : Char → Bool) :
    ∀ (w s : Str), (∀ c ∈ w, p c = true) →
      collapseRunsAux p true (w ++ s) = collapseRunsAux p true s := by
  intro w
  induction w with
  | nil => intro s _; rfl
  | cons c w' ih =>
    intro s h
    have hc : p c = true := h c (List.mem_cons_self _ _)
    simp only [List.cons_append]
    rw [collapseRunsAux, hc]
    simp only [if_true]
    exact ih s (fun d hd => h d (List.mem_cons_of_mem c hd))

theorem cw_wsp_step (p : Char → Bool) (w s : Str) (hw : w ≠ [])
    (hws : ∀ c ∈ w, p c = true)
    (hs : s = [] ∨ ∃ c t, s = c :: t ∧ p c = false) :
    collapseRunsAux p false (w ++ s) = ' ' :: collapseRunsAux p false s := by
  cases w with
  | nil => exact absurd rfl hw
  | cons c w' =>
    have hc : p c = true := hws c (List.mem_cons_self _ _)
    simp only [List.cons_append]
    rw [collapseRunsAux, hc]
    simp only [if_true, Bool.false_eq_true, if_false]
    rw [cw_ws_skip p w' s (fun d hd => hws d (List.mem_cons_of_mem c hd))]
    rw [cw_flag_irrel p true s hs]

theorem cw_append_split (p : Char → Bool) :
    ∀ (a b : Str) (fl : Bool) (d : Char), a.getLast? = some d → p d = false →
      collapseRunsAux p fl (a ++ b) =
        collapseRunsAux p fl a ++ collapseRunsAux p false b := by
  intro a
  induction a with
  | nil =>
    intro b fl d hd
    simp at hd
  | cons c a' ih =>
    intro b fl d hd hpd
    cases a' with
    | nil =>
      have hcd : c = d := by simpa using hd
      subst hcd
      simp only [List.cons_append, List.nil_append]
      simp [collapseRunsAux, hpd]
    | cons c2 a'' =>
      have hd' : (c2 :: a'').getLast? = some d := by
        rw [← List.getLast?_cons_cons (a := c)]
        exact hd
      simp only [List.cons_append]
      by_cases hc : p c = true
      · rw [collapseRunsAux, hc]
        conv_rhs => rw [collapseRunsAux, hc]
        cases fl with
        | false =>
          simp only [if_true, Bool.false_eq_true, if_false]
          rw [List.cons_append]
          congr 1
          exact ih b true d hd' hpd
        | true =>
          simp only [if_true]
          exact ih b true d hd' hpd
      · have hcf : p c = false := by simpa using hc
        rw [collapseRunsAux, hcf]
        conv_rhs => rw [collapseRunsAux, hcf]
        simp only [Bool.false_eq_true, if_false]
        rw [List.cons_append]
        congr 1
        exact ih b false d hd' hpd

theorem collapse_infix {mid : Str} (hm : mid ≠ [])
    (hh : ∀ c, mid.head? = some c → isPyWs c = false)
    (hl : ∀ c, mid.getLast? = some c → isPyWs c = false) :
    ∀ (x : Str) (b : Bool), mid <:+: x →
      collapseWs mid <:+: collapseRunsAux isPyWs b x := by
  intro x
  induction x with
  | nil =>
    intro b h
    rw [List.infix_nil] at h
    exact absurd h hm
  | cons d rest ih =>
    intro b h
    rcases List.infix_cons_iff.mp h with hpre | hinf
    · obtain ⟨post, hpost⟩ := hpre
      obtain ⟨dl, hdl⟩ : ∃ dl, mid.getLast? = some dl := by
        match hx : mid.getLast? with
        | some dl => exact ⟨dl, rfl⟩
        | none => exact absurd (List.getLast?_eq_none_iff.mp hx) hm
      rw [← hpost]
      rw [cw_append_split isPyWs mid post b dl hdl (hl dl hdl)]
      have hflag : collapseRunsAux isPyWs b mid = collapseWs mid := by
        rw [collapseWs]
        apply cw_flag_irrel
        right
        obtain ⟨c0, t, hc⟩ : ∃ c0 t, mid = c0 :: t := by
          cases mid with
          | nil => exact absurd rfl hm
          | cons a b2 => exact ⟨a, b2, rfl⟩
        exact ⟨c0, t, hc, hh c0 (by rw [hc]; rfl)⟩
      rw [hflag]
      exact (List.prefix_append _ _).isInfix
    · by_cases hd : isPyWs d = true
      · cases b with
        | false =>
          have hred : collapseRunsAux isPyWs false (d :: rest) =
              ' ' :: collapseRunsAux isPyWs true rest := by
            simp [collapseRunsAux, hd]
          rw [hred]
          exact List.infix_cons (ih true hinf)
        | true =>
          have hred : collapseRunsAux isPyWs true (d :: rest) =
              collapseRunsAux isPyWs true rest := by
            simp [collapseRunsAux, hd]
          rw [hred]
          exact ih true hinf
      · have hdf : isPyWs d = false := by simpa using hd
        have hred : collapseRunsAux isPyWs b (d :: rest) =
            d :: collapseRunsAux isPyWs false rest := by
          simp [collapseRunsAux, hdf]
        rw [hred]
        exact List.infix_cons (ih false hinf)

theorem wsTails_sound : ∀ (s t : Str), t ∈ wsTails s →
    ∃ w, s = w ++ t ∧ w ≠ [] ∧ ∀ c ∈ w, isPyWs c = true := by
  intro s
  induction s with
  | nil => intro t ht; simp [wsTails] at ht
  | cons c rest ih =>
    intro t ht
    rw [wsTails] at ht
    by_cases hc : isPyWs c = true
    · rw [if_pos hc] at ht
      rcases List.mem_cons.mp ht with rfl | hmem
      · refine ⟨[c], rfl, by simp, ?_⟩
        intro x hx
        have : x = c := by simpa using hx
        rw [this]; exact hc
      · obtain ⟨w, hw, hwne, hws⟩ := ih t hmem
        refine ⟨c :: w, by rw [List.cons_append, ← hw], by simp, ?_⟩
        intro x hx
        rcases List.mem_cons.mp hx with rfl | hx2
        · exact hc
        · exact hws x hx2
    · rw [if_neg hc] at ht
      simp at ht

theorem matchToks_sound : ∀ (toks : List Tok) (s r : Str), r ∈ matchToks toks s →
    ∃ consumed, s = consumed ++ r ∧ Consumes toks consumed := by
  intro toks
  induction toks with
  | nil =>
    intro s r hr
    rw [matchToks] at hr
    have : r = s := by simpa using hr
    subst this
    exact ⟨[], rfl, Consumes.nil⟩
  | cons t ks ih =>
    intro s r hr
    cases t with
    | lit c =>
      cases s with
      | nil => simp [matchToks] at hr
      | cons d rest =>
        rw [matchToks] at hr
        by_cases hd : d = c
        · rw [if_pos hd] at hr
          obtain ⟨u, hu, hcons⟩ := ih rest r hr
          subst hd
          exact ⟨d :: u, by rw [List.cons_append, ← hu], Consumes.lit hcons⟩
        · rw [if_neg hd] at hr
          simp at hr
    | cls cs =>
      cases s with
      | nil => simp [matchToks] at hr
      | cons d rest =>
        rw [matchToks] at hr
        by_cases hd : cs.any (fun x => x == d) = true
        · rw [if_pos hd] at hr
          obtain ⟨u, hu, hcons⟩ := ih rest r hr
          obtain ⟨x, hx, hxd⟩ := List.any_eq_true.mp hd
          have hxd' : x = d := by simpa using hxd
          subst hxd'
          exact ⟨x :: u, by rw [List.cons_append, ← hu], Consumes.cls hx hcons⟩
        · rw [if_neg hd] at hr
          simp at hr
    | wsp =>
      rw [matchToks] at hr
      rw [List.mem_flatMap] at hr
      obtain ⟨t', ht', hr'⟩ := hr
      obtain ⟨w, hw, hwne, hws⟩ := wsTails_sound s t' ht'
      obtain ⟨u, hu, hcons⟩ := ih t' r hr'
      refine ⟨w ++ u, ?_, Consumes.wsp hwne hws hcons⟩
      rw [hw, hu, List.append_assoc]

theorem searchAux_sound : ∀ (alts : List (List Tok)) (s : Str) (prev : Option Char),
    searchAux alts prev s = true →
    ∃ toks ∈ alts, ∃ consumed, consumed <:+: s ∧ Consumes toks consumed := by
  intro alts s
  induction s with
  | nil =>
    intro prev h
    rw [searchAux] at h
    have hmh : matchesHere alts [] = true :=
      ((by simpa using h : boundaryOk prev = true ∧ matchesHere alts [] = true)).2
    rw [matchesHere, List.any_eq_true] at hmh
    obtain ⟨toks, htoks, hmt⟩ := hmh
    rw [List.any_eq_true] at hmt
    obtain ⟨r, hr, _⟩ := hmt
    obtain ⟨consumed, hc, hcons⟩ := matchToks_sound toks [] r hr
    exact ⟨toks, htoks, consumed, by rw [hc]; exact (List.prefix_append _ _).isInfix, hcons⟩
  | cons c rest ih =>
    intro prev h
    rw [searchAux] at h
    rcases Bool.or_eq_true_iff.mp h with h1 | h2
    · have hmh : matchesHere alts (c :: rest) = true :=
        ((by simpa using h1 :
          boundaryOk prev = true ∧ matchesHere alts (c :: rest) = true)).2
      rw [matchesHere, List.any_eq_true] at hmh
      obtain ⟨toks, htoks, hmt⟩ := hmh
      rw [List.any_eq_true] at hmt
      obtain ⟨r, hr, _⟩ := hmt
      obtain ⟨consumed, hc, hcons⟩ := matchToks_sound toks (c :: rest) r hr
      exact ⟨toks, htoks, consumed, by rw [hc]; exact (List.prefix_append _ _).isInfix, hcons⟩
    · obtain ⟨toks, ht, consumed, hinf, hcons⟩ := ih (some c) h2
      exact ⟨toks, ht, consumed, List.infix_cons hinf, hcons⟩

theorem consumes_nil_inv {u : Str} (h : Consumes [] u) : u = [] := by
  cases h
  rfl

theorem consumes_lit_inv {toks : List Tok} {u : Str} (h : Consumes toks u) :
    ∀ {c ks}, toks = Tok.lit c :: ks → ∃ u', u = c :: u' ∧ Consumes ks u' := by
  cases h with
  | nil => intro c ks he; cases he
  | lit hrest =>
    intro c ks he
    injection he with h1 h2
    injection h1 with h3
    subst h3
    subst h2
    exact ⟨_, rfl, hrest⟩
  | cls hc hrest =>
    intro c ks he
    injection he with h1 _
    simp at h1
  | wsp hw hws hrest =>
    intro c ks he
    injection he with h1 _
    simp at h1

theorem consumes_cls_inv {toks : List Tok} {u : Str} (h : Consumes toks u) :
    ∀ {cs ks}, toks = Tok.cls cs :: ks →
      ∃ c u', c ∈ cs ∧ u = c :: u' ∧ Consumes ks u' := by
  cases h with
  | nil => intro cs ks he; cases he
  | lit hrest =>
    intro cs ks he
    injection he with h1 _
    simp at h1
  | cls hc hrest =>
    intro cs ks he
    injection he with h1 h2
    injection h1 with h3
    subst h3
    subst h2
    exact ⟨_, _, hc, rfl, hrest⟩
  | wsp hw hws hrest =>
    intro cs ks he
    injection he with h1 _
    simp at h1

theorem consumes_wsp_inv {toks : List Tok} {u : Str} (h : Consumes toks u) :
    ∀ {ks}, toks = Tok.wsp :: ks →
      ∃ w u', w ≠ [] ∧ (∀ c ∈ w, isPyWs c = true) ∧ u = w ++ u' ∧ Consumes ks u' := by
  cases h with
  | nil => intro ks he; cases he
  | lit hrest =>
    intro ks he
    injection he with h1 _
    simp at h1
  | cls hc hrest =>
    intro ks he
    injection he with h1 _
    simp at h1
  | wsp hw hws hrest =>
    intro ks he
    injection he with _ h2
    subst h2
    exact ⟨_, _, hw, hws, rfl, hrest⟩

theorem consumes_head_nonws {toks : List Tok} {u : Str} (h : Consumes toks u)
    (t0 : Tok) (ks : List Tok) (htk : toks = t0 :: ks)
    (hwsp : isWspTok t0 = false) (hok : tokCharsOk t0 = true) :
    ∃ c u', u = c :: u' ∧ isPyWs c = false := by
  cases t0 with
  | lit c =>
    obtain ⟨u', rfl, _⟩ := consumes_lit_inv h htk
    exact ⟨c, u', rfl, by simpa [tokCharsOk] using hok⟩
  | cls cs =>
    obtain ⟨c, u', hcmem, rfl, _⟩ := consumes_cls_inv h htk
    refine ⟨c, u', rfl, ?_⟩
    rw [tokCharsOk] at hok
    have h2 : cs.all (fun x => !isPyWs x) = true :=
      ((by simpa using hok : ¬cs.isEmpty = true ∧ cs.all (fun x => !isPyWs x) = true)).2
    simpa using List.all_eq_true.mp h2 c hcmem
  | wsp => simp [isWspTok] at hwsp

theorem noAdjWsp_tail (t : Tok) (ks : List Tok) (h : noAdjWsp (t :: ks) = true) :
    noAdjWsp ks = true := by
  cases ks with
  | nil => rfl
  | cons k2 ks2 => cases t <;> cases k2 <;> simp_all [noAdjWsp]

theorem consumes_last_nonws : ∀ (toks : List Tok) (u : Str), Consumes toks u →
    toks.all tokCharsOk = true →
    (∀ tl, toks.getLast? = some tl → isWspTok tl = false) →
    toks ≠ [] →
    ∃ d, u.getLast? = some d ∧ isPyWs d = false := by
  intro toks
  induction toks with
  | nil => intro u _ _ _ hne; exact absurd rfl hne
  | cons t ks ih =>
    intro u h hall hlast _
    have hall' : ks.all tokCharsOk = true := by
      rw [List.all_cons] at hall
      exact ((by simpa using hall :
        tokCharsOk t = true ∧ ks.all tokCharsOk = true)).2
    have hlastks : ks ≠ [] → ∀ tl, ks.getLast? = some tl → isWspTok tl = false := by
      intro hksne tl htl
      apply hlast
      rw [← htl]
      cases ks with
      | nil => exact absurd rfl hksne
      | cons k2 ks2 => exact List.getLast?_cons_cons
    cases t with
    | lit c =>
      obtain ⟨u', rfl, hrest⟩ := consumes_lit_inv h rfl
      by_cases hksne : ks = []
      · subst hksne
        have hu' : u' = [] := consumes_nil_inv hrest
        subst hu'
        refine ⟨c, rfl, ?_⟩
        have := List.all_eq_true.mp hall (Tok.lit c) (List.mem_cons_self _ _)
        simpa [tokCharsOk] using this
      · obtain ⟨d, hd, hdw⟩ := ih u' hrest hall' (hlastks hksne) hksne
        refine ⟨d, ?_, hdw⟩
        have hu'ne : u' ≠ [] := by
          intro he; subst he; simp at hd
        cases u' with
        | nil => exact absurd rfl hu'ne
        | cons a b => rw [List.getLast?_cons_cons]; exact hd
    | cls cs =>
      obtain ⟨c, u', hcmem, rfl, hrest⟩ := consumes_cls_inv h rfl
      by_cases hksne : ks = []
      · subst hksne
        have hu' : u' = [] := consumes_nil_inv hrest
        subst hu'
        refine ⟨c, rfl, ?_⟩
        have hok := List.all_eq_true.mp hall (Tok.cls cs) (List.mem_cons_self _ _)
        rw [tokCharsOk] at hok
        have h2 : cs.all (fun x => !isPyWs x) = true :=
          ((by simpa using hok : ¬cs.isEmpty = true ∧
            cs.all (fun x => !isPyWs x) = true)).2
        simpa using List.all_eq_true.mp h2 c hcmem
      · obtain ⟨d, hd, hdw⟩ := ih u' hrest hall' (hlastks hksne) hksne
        refine ⟨d, ?_, hdw⟩
        have hu'ne : u' ≠ [] := by
          intro he; subst he; simp at hd
        cases u' with
        | nil => exact absurd rfl hu'ne
        | cons a b => rw [List.getLast?_cons_cons]; exact hd
    | wsp =>
      obtain ⟨w, u', hwne, hws, rfl, hrest⟩ := consumes_wsp_inv h rfl
      by_cases hksne : ks = []
      · subst hksne
        exact absurd (hlast Tok.wsp rfl) (by simp [isWspTok])
      · obtain ⟨d, hd, hdw⟩ := ih u' hrest hall' (hlastks hksne) hksne
        refine ⟨d, ?_, hdw⟩
        have hu'ne : u' ≠ [] := by
          intro he; subst he; simp at hd
        rw [List.getLast?_append_of_ne_nil _ hu'ne]
        exact hd

theorem consumes_collapse : ∀ (toks : List Tok) (u : Str), Consumes toks u →
    toks.all tokCharsOk = true → noAdjWsp toks = true →
    collapseWs u ∈ expandToks toks := by
  intro toks
  induction toks with
  | nil =>
    intro u h _ _
    rw [consumes_nil_inv h]
    simp [collapseWs, collapseRunsAux, expandToks]
  | cons t ks ih =>
    intro u h hall hadj
    have hall' : ks.all tokCharsOk = true := by
      rw [List.all_cons] at hall
      exact ((by simpa using hall :
        tokCharsOk t = true ∧ ks.all tokCharsOk = true)).2
    have hadj' : noAdjWsp ks = true := noAdjWsp_tail t ks hadj
    cases t with
    | lit c =>
      obtain ⟨u', rfl, hrest⟩ := consumes_lit_inv h rfl
      have hc : isPyWs c = false := by
        have := List.all_eq_true.mp hall (Tok.lit c) (List.mem_cons_self _ _)
        simpa [tokCharsOk] using this
      have hcol : collapseWs (c :: u') = c :: collapseWs u' := by
        simp [collapseWs, collapseRunsAux, hc]
      rw [hcol, expandToks]
      exact List.mem_map_of_mem _ (ih u' hrest hall' hadj')
    | cls cs =>
      obtain ⟨c, u', hcmem, rfl, hrest⟩ := consumes_cls_inv h rfl
      have hok := List.all_eq_true.mp hall (Tok.cls cs) (List.mem_cons_self _ _)
      rw [tokCharsOk] at hok
      have h2 : cs.all (fun x => !isPyWs x) = true :=
        ((by simpa using hok : ¬cs.isEmpty = true ∧
          cs.all (fun x => !isPyWs x) = true)).2
      have hc : isPyWs c = false := by
        simpa using List.all_eq_true.mp h2 c hcmem
      have hcol : collapseWs (c :: u') = c :: collapseWs u' := by
        simp [collapseWs, collapseRunsAux, hc]
      rw [hcol, expandToks, List.mem_flatMap]
      exact ⟨c, hcmem, List.mem_map_of_mem _ (ih u' hrest hall' hadj')⟩
    | wsp =>
      obtain ⟨w, u', hwne, hws, rfl, hrest⟩ := consumes_wsp_inv h rfl
      have hsform : u' = [] ∨ ∃ c t2, u' = c :: t2 ∧ isPyWs c = false := by
        cases hks : ks with
        | nil =>
          left
          rw [hks] at hrest
          exact consumes_nil_inv hrest
        | cons k2 ks2 =>
          cases k2 with
          | lit c2 =>
            obtain ⟨u2, he, _⟩ := consumes_lit_inv hrest hks
            right
            refine ⟨c2, u2, he, ?_⟩
            have := List.all_eq_true.mp hall' (Tok.lit c2)
              (by rw [hks]; exact List.mem_cons_self _ _)
            simpa [tokCharsOk] using this
          | cls cs2 =>
            obtain ⟨c2, u2, hmem2, he, _⟩ := consumes_cls_inv hrest hks
            right
            refine ⟨c2, u2, he, ?_⟩
            have hok2 := List.all_eq_true.mp hall' (Tok.cls cs2)
              (by rw [hks]; exact List.mem_cons_self _ _)
            rw [tokCharsOk] at hok2
            have h2 : cs2.all (fun x => !isPyWs x) = true :=
              ((by simpa using hok2 : ¬cs2.isEmpty = true ∧
                cs2.all (fun x => !isPyWs x) = true)).2
            simpa using List.all_eq_true.mp h2 c2 hmem2
          | wsp =>
            exfalso
            rw [hks] at hadj
            simp [noAdjWsp] at hadj
      have hcol : collapseWs (w ++ u') = ' ' :: collapseWs u' := by
        simp only [collapseWs]
        exact cw_wsp_step isPyWs w u' hwne hws hsform
      rw [hcol, expandToks]
      exact List.mem_map_of_mem _ (ih u' hrest hall' hadj')

theorem edgeOk_spec {ph : Str} (h : edgeOk ph = true) :
    ph ≠ [] ∧ (∀ c, ph.head? = some c → isPyWs c = false) ∧
      (∀ c, ph.getLast? = some c → isPyWs c = false) := by
  rw [edgeOk] at h
  have hb : (ph.head?.elim false (fun a => !isPyWs a)) = true ∧
      (ph.getLast?.elim false (fun a => !isPyWs a)) = true := by
    simpa using h
  refine ⟨?_, ?_, ?_⟩
  · intro he
    subst he
    simpa using hb.1
  · intro c hc
    have h1 := hb.1
    rw [hc] at h1
    simpa using h1
  · intro c hc
    have h2 := hb.2
    rw [hc] at h2
    simpa using h2

/- ------------------------------------------------------------------ -/
/- C4: no false positives on legitimate reviews (corrected).          -/
/- ------------------------------------------------------------------ -/

/-- Counterexample to C4 as stated: a plausible accepted review carrying
the required section headers and no sentinel-like phrase (no sentinel
containment, no "not a resume"/"not suitable" phrasing) is still
classified as a rejection, merely because it discusses document type with
the word "documentation". -/
theorem legit_review_false_positive_cex :
    containsSub hdr1 cexReviewText = true ∧
    containsSub hdr2 cexReviewText = true ∧
    containsSub hdr3 cexReviewText = true ∧
    containsSub hdr4 cexReviewText = true ∧
    containsSub (toLowerS sentinel) (toLowerS cexReviewText) = false ∧
    containsSub phrNotAResume (condensedOf cexReviewText) = false ∧
    containsSub phrNotAResumeAcc (condensedOf cexReviewText) = false ∧
    containsSub phrNotARsum (condensedOf cexReviewText) = false ∧
    containsSub phrNotSuitable (condensedOf cexReviewText) = false ∧
    is_invalid_resume_response (some cexReviewText) = true := by
  refine ⟨?_, ?_, ?_, ?_, ?_, ?_, ?_, ?_, ?_, ?_⟩ <;> decide

/-- C4 (amended) — The detector returns false on every review text that
contains the required headers, provided its whitespace-condensed
lower-cased form contains none of the phrases in `condensedPhrases`
(the lower-cased sentinel, the "not a resume"/"not suitable" phrasings,
and the collapsed expansions of the twelve regex patterns — including the
document-type keywords, which the counterexample shows must be avoided
too). -/
theorem legit_review_not_rejected (s : Str)
    (hh1 : containsSub hdr1 s = true) (hh2 : containsSub hdr2 s = true)
    (hh3 : containsSub hdr3 s = true) (hh4 : containsSub hdr4 s = true)
    (hphrases : ∀ ph ∈ condensedPhrases, containsSub ph (condensedOf s) = false) :
    is_invalid_resume_response (some s) = false := by
  by_cases hne : normalize_llm_text (some s) = []
  · simp [is_invalid_resume_response, hne]
  · have hcond : condensedOf s =
        pyStrip (collapseWs (toLowerS (normalize_llm_text (some s)))) := rfl
    have hsl : toLowerS sentinel = sentinelLower := by decide
    have hslcol : collapseWs sentinelLower = sentinelLower := by decide
    have hslmem : sentinelLower ∈ condensedPhrases := by simp [condensedPhrases]
    have hslne : sentinelLower ≠ [] := by decide
    have hslhead : ∀ c, sentinelLower.head? = some c → isPyWs c = false := by
      intro c hc
      have h1 : sentinelLower.head? = some 't' := by decide
      rw [h1] at hc
      have h2 : 't' = c := by simpa using hc
      rw [← h2]; decide
    have hsllast : ∀ c, sentinelLower.getLast? = some c → isPyWs c = false := by
      intro c hc
      have h1 : sentinelLower.getLast? = some '.' := by decide
      rw [h1] at hc
      have h2 : '.' = c := by simpa using hc
      rw [← h2]; decide
    have hBfalse : containsSub (toLowerS sentinel)
        (toLowerS (normalize_llm_text (some s))) = false := by
      by_cases hB : containsSub (toLowerS sentinel)
          (toLowerS (normalize_llm_text (some s))) = true
      · exfalso
        have hinf : toLowerS sentinel <:+: toLowerS (normalize_llm_text (some s)) :=
          (containsSub_iff _ _).mp hB
        rw [hsl] at hinf
        have h2 : collapseWs sentinelLower <:+:
            collapseRunsAux isPyWs false (toLowerS (normalize_llm_text (some s))) :=
          collapse_infix hslne hslhead hsllast _ false hinf
        rw [hslcol] at h2
        have h3 : sentinelLower <:+: condensedOf s := by
          rw [hcond]
          exact infix_pyStrip hslne hslhead hsllast h2
        have h4 : containsSub sentinelLower (condensedOf s) = true :=
          (containsSub_iff _ _).mpr h3
        rw [hphrases sentinelLower hslmem] at h4
        cases h4
      · simpa using hB
    have hSentFalse : normalize_llm_text (some s) ≠ sentinel := by
      intro hsent
      have hcondeq : condensedOf s = sentinelLower := by
        rw [hcond, hsent, hsl, hslcol]
        decide
      have h4 := hphrases sentinelLower hslmem
      rw [hcondeq, containsSub_self] at h4
      cases h4
    have hc3a := hphrases phrNotAResume (by simp [condensedPhrases])
    have hc3b := hphrases phrNotAResumeAcc (by simp [condensedPhrases])
    have hc3c := hphrases phrNotARsum (by simp [condensedPhrases])
    have hc4 := hphrases phrNotSuitable (by simp [condensedPhrases])
    have hPat : patterns.any
        (fun p => searchPat p (toLowerS (normalize_llm_text (some s)))) = false := by
      by_cases hA : patterns.any
          (fun p => searchPat p (toLowerS (normalize_llm_text (some s)))) = true
      · exfalso
        obtain ⟨p, hpmem, hsp⟩ := List.any_eq_true.mp hA
        obtain ⟨toks, htoks, consumed, hinf, hcons⟩ := searchAux_sound p _ none hsp
        have hok : patOkToks toks = true := by
          have d1 : ∀ alts ∈ patterns, ∀ tk ∈ alts, patOkToks tk = true := by decide
          exact d1 p hpmem toks htoks
        rw [patOkToks] at hok
        obtain ⟨⟨⟨⟨hne', hallok⟩, hadj⟩, hhead⟩, hlast⟩ :
            (((toks.isEmpty = false ∧ toks.all tokCharsOk = true) ∧
              noAdjWsp toks = true) ∧
              isWspTok (toks.headD Tok.wsp) = false) ∧
              isWspTok (toks.getLastD Tok.wsp) = false := by
          simpa using hok
        obtain ⟨t0, ks, htk⟩ : ∃ t0 ks, toks = t0 :: ks := by
          cases toks with
          | nil => simp at hne'
          | cons a b => exact ⟨a, b, rfl⟩
        have hheadD : toks.headD Tok.wsp = t0 := by rw [htk]; rfl
        have hokt0 : tokCharsOk t0 = true :=
          List.all_eq_true.mp hallok t0 (by rw [htk]; exact List.mem_cons_self _ _)
        obtain ⟨c0, u0, hu0, hc0w⟩ :=
          consumes_head_nonws hcons t0 ks htk (by rw [← hheadD]; exact hhead) hokt0
        have hlast' : ∀ tl, toks.getLast? = some tl → isWspTok tl = false := by
          intro tl htl
          have hgl := hlast
          rw [List.getLastD_eq_getLast?, htl] at hgl
          simpa using hgl
        obtain ⟨d0, hd0, hd0w⟩ :=
          consumes_last_nonws toks consumed hcons hallok hlast' (by rw [htk]; simp)
        have hcne2 : consumed ≠ [] := by rw [hu0]; simp
        have hch : ∀ c, consumed.head? = some c → isPyWs c = false := by
          intro c hc
          rw [hu0] at hc
          have h5 : c0 = c := by simpa using hc
          rw [← h5]; exact hc0w
        have hcl : ∀ c, consumed.getLast? = some c → isPyWs c = false := by
          intro c hc
          rw [hd0] at hc
          have h5 : d0 = c := by simpa using hc
          rw [← h5]; exact hd0w
        have hphm : collapseWs consumed ∈ expandToks toks :=
          consumes_collapse toks consumed hcons hallok hadj
        have hphmem : collapseWs consumed ∈ condensedPhrases := by
          rw [condensedPhrases]
          apply List.mem_append_right
          rw [List.mem_flatMap]
          exact ⟨p, hpmem, by rw [List.mem_flatMap]; exact ⟨toks, htoks, hphm⟩⟩
        have hedge : edgeOk (collapseWs consumed) = true := by
          have d3 : ∀ ph ∈ condensedPhrases, edgeOk ph = true := by decide
          exact d3 _ hphmem
        obtain ⟨hpne, hphh, hphl⟩ := edgeOk_spec hedge
        have hcc : collapseWs consumed <:+:
            collapseRunsAux isPyWs false (toLowerS (normalize_llm_text (some s))) :=
          collapse_infix hcne2 hch hcl _ false hinf
        have hcc2 : collapseWs consumed <:+: condensedOf s := by
          rw [hcond]
          exact infix_pyStrip hpne hphh hphl hcc
        have hfinal := (containsSub_iff _ _).mpr hcc2
        rw [hphrases _ hphmem] at hfinal
        cases hfinal
      · simpa using hA
    simp only [is_invalid_resume_response]
    rw [← hcond]
    rw [if_neg hne, if_neg hSentFalse]
    rw [if_neg (show ¬ containsSub (toLowerS sentinel)
      (toLowerS (normalize_llm_text (some s))) = true by simp [hBfalse])]
    rw [if_neg (show ¬ (containsSub phrNotAResume (condensedOf s) ||
        containsSub phrNotAResumeAcc (condensedOf s) ||
        containsSub phrNotARsum (condensedOf s)) = true by
      simp [hc3a, hc3b, hc3c])]
    rw [if_neg (show ¬ containsSub phrNotSuitable (condensedOf s) = true by
      simp [hc4])]
    exact hPat

/-- Witness for the amended C4: a full five-section review that avoids all
listed phrases passes the detector. -/
theorem legit_review_not_rejected_witness :
    is_invalid_resume_response (some goodReviewText) = false :=
  legit_review_not_rejected goodReviewText (by decide) (by decide) (by decide)
    (by decide) (by decide)
